import Mathlib

/-!
Verification of the payload packaging, splitting and signature-based
recovery engine of `polygot_tool.py`.

Bytes are modelled as natural numbers (`List Nat`); every definition is a
shallow embedding of the corresponding Python code in
`src/polygot_tool.py`, translated line by line from the source.
-/

namespace Polygot

/-- The signature bytes `b'PK'` (`0x50 0x4B`) hardcoded at every
extraction call site of the source (`data.find(b'PK')`). -/
def pkSig : List Nat := [80, 75]

/-- `occursAt sig data j` states that `sig` occurs literally in `data`
at offset `j`, i.e. `data[j : j + len(sig)] == sig` in Python terms. -/
def occursAt (sig data : List Nat) (j : Nat) : Prop :=
  (data.drop j).take sig.length = sig

instance (sig data : List Nat) (j : Nat) : Decidable (occursAt sig data j) :=
  inferInstanceAs (Decidable (_ = _))

/-- Models Python's `data.find(sig)` (used as the SignatureScanner):
returns `some i` for the smallest `i` with `data[i : i + len(sig)] == sig`,
and `none` when `sig` occurs nowhere (Python returns `-1`). -/
def pyFind (data sig : List Nat) : Option Nat :=
  match data with
  | [] => if ([] : List Nat).take sig.length = sig then some 0 else none
  | _ :: t =>
    if data.take sig.length = sig then some 0
    else (pyFind t sig).map (· + 1)

/-- Models `extract_single_polyglot` (lines 874-892): find the first
`b'PK'`, fail (`None`) when absent, otherwise return `data[zip_start:]`. -/
def extractSingle (data : List Nat) : Option (List Nat) :=
  (pyFind data pkSig).map (fun i => data.drop i)

/-- Models the per-part body of `combine_split_polyglots`
(lines 949-954): `data_start = data.find(b'PK')`, falling back to
`len(data) // 2` when the signature is absent, then `data[data_start:]`. -/
def extractPartBytes (data : List Nat) : List Nat :=
  data.drop ((pyFind data pkSig).getD (data.length / 2))

/-- Models the loop of `combine_split_polyglots` over an already ordered
list of part contents: extract each part and concatenate. -/
def combineParts (parts : List (List Nat)) : List Nat :=
  (parts.map extractPartBytes).flatten

/-- The exact integer ceiling `⌈len / s⌉` (for `s > 0`): the idealized
part count.  The program's count `numPartsProg` (float-based, below)
agrees with it at all realistic sizes but can diverge for astronomically
large inputs; the split theorems below take that agreement as an
explicit hypothesis. -/
def numParts (len s : Nat) : Nat := (len + s - 1) / s

/-- `start = i * split_size` (lines 364 and 433). -/
def partStart (s i : Nat) : Nat := i * s

/-- `end = min((i + 1) * split_size, size)` (lines 365 and 434). -/
def partEnd (len s i : Nat) : Nat := min ((i + 1) * s) len

/-- The payload slice `payload[start:end]` streamed into part `i`
(the seek/chunked-read loop of lines 374-389 and 444-459). -/
def paySlice (P : List Nat) (s i : Nat) : List Nat :=
  (P.drop (partStart s i)).take (partEnd P.length s i - partStart s i)

/-- Bytes of one produced part file: the full container template
followed by that part's payload slice (lines 370-389 and 439-459). -/
def partFileBytes (C P : List Nat) (s i : Nat) : List Nat :=
  C ++ paySlice P s i

/-- The ordered list of part files of a split write with the idealized
(exact-ceiling) part count; `splitPartsProg` below is the program's
list, and the two coincide exactly when `numPartsProg` agrees with
`numParts`. -/
def splitParts (C P : List Nat) (s : Nat) : List (List Nat) :=
  (List.range (numParts P.length s)).map (partFileBytes C P s)

/-- The bytes the per-part checksum is computed over (lines 391-395 and
461-465): open the part file, `seek(os.path.getsize(video_path))`,
read the rest, digest it. -/
def partChecksumInput (C P : List Nat) (s i : Nat) : List Nat :=
  (partFileBytes C P s i).drop C.length

/-- Fuel-driven floor of `log2` (fuel `n` suffices for input `n`);
structural recursion so the kernel can evaluate it on literals. -/
def log2F : Nat → Nat → Nat
  | 0, _ => 0
  | fuel + 1, n => if n ≤ 1 then 0 else log2F fuel (n / 2) + 1

/-- `⌊log2 n⌋` for `n ≥ 1`. -/
def natLog2 (n : Nat) : Nat := log2F n n

/-- Whether `a / b ≥ 2 ^ d` for naturals `a, b ≥ 1` and integer `d`. -/
def ratGe2Pow (a b : Nat) (d : Int) : Bool :=
  if 0 ≤ d then decide (b * 2 ^ d.toNat ≤ a)
  else decide (b ≤ a * 2 ^ (-d).toNat)

/-- `⌊log2 (a / b)⌋` for `a, b ≥ 1`: the bit-length difference, corrected
down by one when `a / b` falls below `2 ^ (log2 a - log2 b)`. -/
def floorLog2Ratio (a b : Nat) : Int :=
  let d : Int := (natLog2 a : Int) - (natLog2 b : Int)
  if ratGe2Pow a b d then d else d - 1

/-- Round `(a / b) * 2 ^ t` (`a, b ≥ 1`, `t : ℤ`) to the nearest integer,
ties to even — the IEEE-754 rounding step of CPython's int division. -/
def rnePos (a b : Nat) (t : Int) : Nat :=
  let num := a * 2 ^ t.toNat
  let den := b * 2 ^ (-t).toNat
  let q := num / den
  let r := num % den
  if 2 * r < den then q
  else if den < 2 * r then q + 1
  else if q % 2 = 0 then q else q + 1

/-- Models `math.ceil(a / b)` for Python ints `a ≥ 0`, `b ≥ 1`: CPython's
`int.__truediv__` produces the correctly rounded (round-half-to-even)
IEEE-754 binary64 of the true quotient — normal numbers carry a 53-bit
significand `m ∈ [2^52, 2^53]` at scale `2^(e-52)` for
`e = ⌊log2 (a/b)⌋ ∈ [-1022, 1023]`, smaller quotients round on the
subnormal quantum `2^-1074`, and a rounded result `≥ 2^1024` raises
`OverflowError` (`none`) — and `math.ceil` of the resulting float is
exact. -/
def floatDivCeil (a b : Nat) : Option Nat :=
  if a = 0 then some 0
  else
    let e := floorLog2Ratio a b
    if e < -1022 then
      some (if rnePos a b 1074 = 0 then 0 else 1)
    else
      let m := rnePos a b (52 - e)
      if 1023 < e ∨ (e = 1023 ∧ m = 2 ^ 53) then none
      else if 52 ≤ e then some (m * 2 ^ (e - 52).toNat)
      else some ((m + 2 ^ (52 - e).toNat - 1) / 2 ^ (52 - e).toNat)

/-- The part count the program actually computes:
`num_parts = math.ceil(zip_size / split_size)` (lines 355 and 424) under
CPython float true-division semantics (`none` on `ZeroDivisionError` or
`OverflowError`). -/
def numPartsProg (len s : Nat) : Option Nat :=
  if s = 0 then none else floatDivCeil len s

/-- The ordered list of part files the program produces
(`for i in range(num_parts)`, lines 362/431, with the float-derived
`num_parts`). -/
def splitPartsProg (C P : List Nat) (s : Nat) : Option (List (List Nat)) :=
  (numPartsProg P.length s).map (fun n => (List.range n).map (partFileBytes C P s))

/-- Models `create_single_polyglot` (lines 223-281): stream the container
template, then the packed payload, into one output file.  Archive packing
is the external collaborator `pack` (the spec's `pack(entries)`), taking
the `(path bytes, arcname bytes)` entries of `files_to_hide`.  The source
has no error branch: the output bytes are produced for every input,
including an empty `files_to_hide`. -/
def createSinglePolyglot (pack : List (List Nat × List Nat) → List Nat)
    (video : List Nat) (files : List (List Nat × List Nat)) : List Nat :=
  video ++ pack files

/-- Written from the spec's words (refinement target for C2): the exact
mathematical ceiling `⌈len / s⌉` of the claim, `len / s` rounded up. -/
def ceilSpec (len s : Nat) : Nat :=
  if len % s = 0 then len / s else len / s + 1

/-- The split-plan property asserted by C2: part count is the ceiling,
ranges are contiguous, non-overlapping, nonempty, cover `[0, len)`
exactly, and the last part has length `len - (partCount - 1) * s > 0`. -/
def SplitPlanOK (len s : Nat) : Prop :=
  numParts len s = ceilSpec len s
  ∧ partStart s 0 = 0
  ∧ partEnd len s (numParts len s - 1) = len
  ∧ (∀ i, i + 1 < numParts len s → partEnd len s i = partStart s (i + 1))
  ∧ (∀ i, i < numParts len s →
      partStart s i < partEnd len s i ∧ partEnd len s i ≤ len)
  ∧ (∀ i j, i < j → j < numParts len s → partEnd len s i ≤ partStart s j)
  ∧ (∀ x, x < len →
      ∃ i, i < numParts len s ∧ partStart s i ≤ x ∧ x < partEnd len s i)
  ∧ partEnd len s (numParts len s - 1) - partStart s (numParts len s - 1)
      = len - (numParts len s - 1) * s
  ∧ 0 < len - (numParts len s - 1) * s

/-- Python string comparison on file names, modelled on code-point lists:
lexicographic, a strict prefix being smaller. -/
def lexLe : List Nat → List Nat → Bool
  | [], _ => true
  | _ :: _, [] => false
  | a :: as, b :: bs =>
    if a < b then true
    else if b < a then false
    else lexLe as bs

/-- The ordering relation `sorted(...)` uses on part file names. -/
def LexLe (a b : List Nat) : Prop := lexLe a b = true

instance : DecidableRel LexLe :=
  fun a b => inferInstanceAs (Decidable (lexLe a b = true))

/-- Models Python's `sorted(part_files)` (line 944): the unique
lexicographically sorted rearrangement of the given paths. -/
def sortPaths (paths : List (List Nat)) : List (List Nat) :=
  List.insertionSort LexLe paths

/-- Models `combine_split_polyglots` (lines 938-959) end to end: sort the
supplied part paths, read each file (`readFile` is the file system),
strip each container prefix via the signature scan, and concatenate. -/
def combineFiles (readFile : List Nat → List Nat)
    (paths : List (List Nat)) : List Nat :=
  combineParts ((sortPaths paths).map readFile)

/-- Decimal digit code points of `n`, as produced by the Python f-string
`f"{part_num}"`. -/
def natDigits (n : Nat) : List Nat :=
  if h : n < 10 then [48 + n]
  else natDigits (n / 10) ++ [48 + n % 10]
termination_by n
decreasing_by exact Nat.div_lt_self (by omega) (by omega)

/-- The part file name `f"{output_base}_part{k}.mp4"` (lines 367 and 436)
as code points: `95 112 97 114 116` is `_part`, `46 109 112 52` is `.mp4`. -/
def partName (base : List Nat) (k : Nat) : List Nat :=
  base ++ [95, 112, 97, 114, 116] ++ natDigits k ++ [46, 109, 112, 52]

/-- The ordered list of output file names of a split with `n` parts
(1-based part numbers, ascending). -/
def splitFileNames (base : List Nat) (n : Nat) : List (List Nat) :=
  (List.range n).map (fun i => partName base (i + 1))

/- ### Correctness of the signature scan (`pyFind`) -/

theorem pyFind_none_iff (data sig : List Nat) :
    pyFind data sig = none → ∀ j, ¬ occursAt sig data j := by
  induction data with
  | nil =>
    intro h j hj
    unfold pyFind at h
    by_cases hc : ([] : List Nat).take sig.length = sig
    · rw [if_pos hc] at h
      exact Option.noConfusion h
    · have hsig : sig = [] := by simpa [occursAt] using hj
      subst hsig
      exact hc (by simp)
  | cons a t ih =>
    intro h j hj
    unfold pyFind at h
    by_cases hc : (a :: t).take sig.length = sig
    · rw [if_pos hc] at h
      exact Option.noConfusion h
    · rw [if_neg hc] at h
      cases j with
      | zero => exact hc hj
      | succ k =>
        have hk : occursAt sig t k := by
          unfold occursAt at hj ⊢
          simpa using hj
        exact ih (Option.map_eq_none'.mp h) k hk

theorem pyFind_some_first (data sig : List Nat) :
    ∀ i, pyFind data sig = some i →
      occursAt sig data i ∧ ∀ j, j < i → ¬ occursAt sig data j := by
  induction data with
  | nil =>
    intro i h
    unfold pyFind at h
    by_cases hc : ([] : List Nat).take sig.length = sig
    · rw [if_pos hc] at h
      cases h
      exact ⟨hc, fun j hj => absurd hj (Nat.not_lt_zero j)⟩
    · rw [if_neg hc] at h
      exact Option.noConfusion h
  | cons a t ih =>
    intro i h
    unfold pyFind at h
    by_cases hc : (a :: t).take sig.length = sig
    · rw [if_pos hc] at h
      cases h
      exact ⟨hc, fun j hj => absurd hj (Nat.not_lt_zero j)⟩
    · rw [if_neg hc] at h
      obtain ⟨i', hi', rfl⟩ := Option.map_eq_some'.mp h
      obtain ⟨h1, h2⟩ := ih i' hi'
      constructor
      · unfold occursAt at h1 ⊢
        simpa using h1
      · intro j hj
        cases j with
        | zero => exact hc
        | succ k =>
          intro hk
          refine h2 k (by omega) ?_
          unfold occursAt at hk ⊢
          simpa using hk

/-- C4: Signature scan correctness — for every byte buffer `data` and
signature `sig`, the scan (`data.find(sig)`) returns the index of the
first occurrence of `sig` whenever `sig` occurs literally in `data`, and
reports not-found (Python `-1`, here `none`) when `sig` occurs nowhere. -/
theorem scan_finds_first_occurrence (data sig : List Nat) :
    (∀ i, pyFind data sig = some i →
        occursAt sig data i ∧ ∀ j, occursAt sig data j → i ≤ j)
    ∧ (pyFind data sig = none → ∀ j, ¬ occursAt sig data j)
    ∧ ((∃ j, occursAt sig data j) → (pyFind data sig).isSome = true) := by
  refine ⟨?_, pyFind_none_iff data sig, ?_⟩
  · intro i hi
    obtain ⟨h1, h2⟩ := pyFind_some_first data sig i hi
    refine ⟨h1, fun j hj => ?_⟩
    by_contra hlt
    exact h2 j (by omega) hj
  · rintro ⟨j, hj⟩
    cases hfind : pyFind data sig with
    | none => exact absurd hj (pyFind_none_iff data sig hfind j)
    | some i => rfl

/-- Witness for C4: the scan property instantiated on the concrete buffer
`[0, 80, 75, 9]`, whose first `b'PK'` occurrence is at offset 1. -/
theorem scan_finds_first_occurrence_witness :
    (∀ i, pyFind [0, 80, 75, 9] pkSig = some i →
        occursAt pkSig [0, 80, 75, 9] i ∧
          ∀ j, occursAt pkSig [0, 80, 75, 9] j → i ≤ j)
    ∧ (pyFind [0, 80, 75, 9] pkSig = none →
        ∀ j, ¬ occursAt pkSig [0, 80, 75, 9] j)
    ∧ ((∃ j, occursAt pkSig [0, 80, 75, 9] j) →
        (pyFind [0, 80, 75, 9] pkSig).isSome = true) :=
  scan_finds_first_occurrence [0, 80, 75, 9] pkSig

/-- C3 counterexample: the claim fails as stated.  With container `[0]`
and payload `[1]` (non-empty), the signature `b'PK'` occurs nowhere, so
`extract_single_polyglot` reports "No ZIP data found" and returns no
payload at all instead of recovering `[1]`. -/
theorem single_roundtrip_fails_in_general :
    extractSingle ([0] ++ [1]) ≠ some [1] := by decide

/-- C3 (amended): single-mode round-trip holds exactly when the first
occurrence of `b'PK'` in the written file `C ++ P` is at offset
`len(C)`: extraction then recovers `P` byte-for-byte. -/
theorem single_roundtrip_of_signature_at_container (C P : List Nat)
    (_hP : P ≠ []) (hsig : pyFind (C ++ P) pkSig = some C.length) :
    extractSingle (C ++ P) = some P := by
  unfold extractSingle
  rw [hsig]
  show some (List.drop C.length (C ++ P)) = some P
  rw [List.drop_left]

/-- Witness for C3 (amended): container `[170]`, payload `[80, 75, 9]`
(which starts with the `b'PK'` signature). -/
theorem single_roundtrip_witness :
    ([80, 75, 9] : List Nat) ≠ [] ∧
    pyFind ([170] ++ [80, 75, 9]) pkSig = some ([170] : List Nat).length ∧
    extractSingle ([170] ++ [80, 75, 9]) = some [80, 75, 9] :=
  ⟨by decide, by decide,
    single_roundtrip_of_signature_at_container [170] [80, 75, 9]
      (by decide) (by decide)⟩

/-- C5: in split mode the checksum recorded for part `i` is computed
over exactly that part's payload slice: the bytes read after seeking
past the container template in the part file are the payload slice,
with no container byte included. -/
theorem part_checksum_covers_payload_slice_only (C P : List Nat)
    (s i : Nat) (_hi : i < numParts P.length s) :
    partChecksumInput C P s i = paySlice P s i := by
  unfold partChecksumInput partFileBytes
  exact List.drop_left C (paySlice P s i)

/-- Witness for C5: container `[7, 7]`, payload `[1, 2, 3]`, part size 2,
part index 1 (the shorter last part). -/
theorem part_checksum_witness :
    1 < numParts ([1, 2, 3] : List Nat).length 2 ∧
    partChecksumInput [7, 7] [1, 2, 3] 2 1 = paySlice [1, 2, 3] 2 1 :=
  ⟨by decide, part_checksum_covers_payload_slice_only [7, 7] [1, 2, 3] 2 1 (by decide)⟩

/- ### The split plan (C2) -/

theorem numParts_pos {len s : Nat} (hs : 1 ≤ s) (hl : 1 ≤ len) :
    1 ≤ numParts len s := by
  unfold numParts
  rw [Nat.one_le_div_iff (by omega)]
  omega

theorem numParts_bounds (len s : Nat) (hs : 1 ≤ s) (hl : 1 ≤ len) :
    ∃ m, numParts len s = m + 1 ∧ m * s < len ∧ len ≤ m * s + s := by
  have hpos := numParts_pos hs hl
  have key : ((len + s - 1) / s - 1) * s < len ∧
      len ≤ ((len + s - 1) / s - 1) * s + s := by
    have hdm := Nat.div_add_mod (len + s - 1) s
    have hr : (len + s - 1) % s < s := Nat.mod_lt _ (by omega)
    have hq : 1 ≤ (len + s - 1) / s := numParts_pos hs hl
    have h1 : ((len + s - 1) / s - 1 + 1) * s = ((len + s - 1) / s - 1) * s + s :=
      Nat.succ_mul _ s
    have h2 : (len + s - 1) / s - 1 + 1 = (len + s - 1) / s := by
      have : 1 ≤ (len + s - 1) / s := hq
      omega
    rw [h2] at h1
    have h3 : s * ((len + s - 1) / s) = ((len + s - 1) / s) * s := Nat.mul_comm _ _
    omega
  exact ⟨(len + s - 1) / s - 1, by unfold numParts at hpos ⊢; omega, key.1, key.2⟩

theorem numParts_eq_ceilSpec (len s : Nat) (hs : 1 ≤ s) :
    numParts len s = ceilSpec len s := by
  unfold numParts ceilSpec
  have hdm := Nat.div_add_mod len s
  have hr : len % s < s := Nat.mod_lt _ (by omega)
  by_cases h0 : len % s = 0
  · rw [if_pos h0]
    have e : len + s - 1 = s * (len / s) + (s - 1) := by omega
    rw [e, Nat.mul_add_div (by omega)]
    have h1 : (s - 1) / s = 0 := Nat.div_eq_of_lt (by omega)
    omega
  · rw [if_neg h0]
    have hms : s * (len / s + 1) = s * (len / s) + s := Nat.mul_succ s (len / s)
    have e : len + s - 1 = s * (len / s + 1) + (len % s - 1) := by omega
    rw [e, Nat.mul_add_div (by omega)]
    have h1 : (len % s - 1) / s = 0 := Nat.div_eq_of_lt (by omega)
    omega

/-- The split plan with the exact-ceiling part count satisfies all the
range invariants; helper for the claim theorem below, which adds the
condition that the program's float-derived count agrees. -/
theorem split_plan_exact (len s : Nat) (hl : 1 ≤ len) (hs : 1 ≤ s) :
    SplitPlanOK len s := by
  obtain ⟨m, hm, hlt, hle⟩ := numParts_bounds len s hs hl
  unfold SplitPlanOK
  rw [hm]
  simp only [Nat.add_sub_cancel]
  refine ⟨?_, ?_, ?_, ?_, ?_, ?_, ?_, ?_, ?_⟩
  · rw [← hm]
    exact numParts_eq_ceilSpec len s hs
  · unfold partStart
    exact Nat.zero_mul s
  · unfold partEnd
    have hsm : (m + 1) * s = m * s + s := Nat.succ_mul m s
    omega
  · intro i hi
    unfold partEnd partStart
    have h1 : (i + 1) * s ≤ m * s := Nat.mul_le_mul_right s (by omega)
    omega
  · intro i hi
    unfold partStart partEnd
    have h1 : i * s ≤ m * s := Nat.mul_le_mul_right s (by omega)
    have h2 : (i + 1) * s = i * s + s := Nat.succ_mul i s
    omega
  · intro i j hij hj
    unfold partEnd partStart
    have h2 : (i + 1) * s ≤ j * s := Nat.mul_le_mul_right s (by omega)
    omega
  · intro x hx
    refine ⟨x / s, ?_, ?_, ?_⟩
    · have hc : m * s = s * m := Nat.mul_comm m s
      have hxle : x ≤ s * m + (s - 1) := by omega
      have hdiv : x / s ≤ (s * m + (s - 1)) / s := Nat.div_le_div_right hxle
      rw [Nat.mul_add_div (by omega)] at hdiv
      have h0 : (s - 1) / s = 0 := Nat.div_eq_of_lt (by omega)
      omega
    · unfold partStart
      have hdm := Nat.div_add_mod x s
      have hc : (x / s) * s = s * (x / s) := Nat.mul_comm _ _
      omega
    · unfold partEnd
      have hdm := Nat.div_add_mod x s
      have hr : x % s < s := Nat.mod_lt _ (by omega)
      have h2 : (x / s + 1) * s = (x / s) * s + s := Nat.succ_mul _ s
      have hc : (x / s) * s = s * (x / s) := Nat.mul_comm _ _
      omega
  · unfold partEnd partStart
    have hsm : (m + 1) * s = m * s + s := Nat.succ_mul m s
    omega
  · omega

/-- C2 counterexample: the claim fails as stated.  At
`payloadLength = 2^53 + 1`, `partSizeBytes = 2^30` the program computes
`math.ceil((2^53 + 1) / 2^30)` by float division: the quotient
`2^23 + 2^-30` rounds half-to-even down to `2^23.0`, so the program
produces `2^23` parts instead of `⌈len / s⌉ = 2^23 + 1`, and its ranges
end at `2^53`, leaving the final payload byte uncovered. -/
theorem split_plan_count_counterexample :
    numPartsProg (2 ^ 53 + 1) (2 ^ 30) = some (2 ^ 23) ∧
    ceilSpec (2 ^ 53 + 1) (2 ^ 30) = 2 ^ 23 + 1 ∧
    partEnd (2 ^ 53 + 1) (2 ^ 30) (2 ^ 23 - 1) < 2 ^ 53 + 1 := by decide

/-- C2 (amended): split plan correctness holds whenever the program's
float-derived part count `math.ceil(len / s)` equals the exact ceiling
`⌈len / s⌉` — true at all realistic sizes, false for astronomically
large payloads such as `len = 2^53 + 1, s = 2^30`.  Under that
condition the part count equals `⌈len / s⌉`, and the per-part ranges
`[i*s, min((i+1)*s, len))` are contiguous, non-overlapping, nonempty,
cover exactly `[0, len)`, with last part length
`len - (partCount - 1) * s > 0`. -/
theorem split_plan_correct_when_float_exact (len s : Nat)
    (hl : 1 ≤ len) (hs : 1 ≤ s)
    (hf : numPartsProg len s = some (numParts len s)) :
    numPartsProg len s = some (ceilSpec len s) ∧ SplitPlanOK len s :=
  ⟨by rw [hf, numParts_eq_ceilSpec len s hs],
    split_plan_exact len s hl hs⟩

/-- Witness for C2 (amended): payload length 25, part size 10 (spec
scenario 2: three parts of lengths 10, 10, 5); the float division
`25 / 10 = 2.5` is exact, so the program count matches the ceiling. -/
theorem split_plan_correct_witness :
    1 ≤ 25 ∧ 1 ≤ 10 ∧ numPartsProg 25 10 = some (numParts 25 10) ∧
    (numPartsProg 25 10 = some (ceilSpec 25 10) ∧ SplitPlanOK 25 10) :=
  ⟨by decide, by decide, by decide,
    split_plan_correct_when_float_exact 25 10 (by decide) (by decide) (by decide)⟩

/- ### Split round-trip (C1) -/

theorem paySlice_zero (P : List Nat) (s : Nat) : paySlice P s 0 = P.take s := by
  unfold paySlice partStart partEnd
  rw [Nat.zero_mul, List.drop_zero, Nat.zero_add, Nat.one_mul, Nat.sub_zero]
  rw [List.take_eq_take]
  omega

theorem paySlice_succ (P : List Nat) (s i : Nat) :
    paySlice P s (i + 1) = paySlice (P.drop s) s i := by
  unfold paySlice partStart partEnd
  rw [List.drop_drop, List.length_drop]
  have e2 : (i + 1 + 1) * s = (i + 1) * s + s := Nat.succ_mul (i + 1) s
  have e1 : (i + 1) * s = i * s + s := Nat.succ_mul i s
  rw [e2, e1, Nat.add_comm s (i * s)]
  congr 1
  omega

theorem numParts_zero (s : Nat) (hs : 1 ≤ s) : numParts 0 s = 0 := by
  unfold numParts
  exact Nat.div_eq_of_lt (by omega)

theorem numParts_drop (len s : Nat) (hs : 1 ≤ s) (hl : 1 ≤ len) :
    numParts (len - s) s = numParts len s - 1 := by
  by_cases hls : len ≤ s
  · have h0 : len - s = 0 := by omega
    rw [h0, numParts_zero s hs]
    have h1 : numParts len s = 1 := by
      unfold numParts
      apply Nat.div_eq_of_lt_le
      · omega
      · omega
    omega
  · unfold numParts
    have e1 : len - s + s - 1 = len - 1 := by omega
    have e2 : len + s - 1 = (len - 1) + s := by omega
    rw [e1, e2, Nat.add_div_right _ (by omega)]
    exact (Nat.add_sub_cancel _ _).symm

theorem flatten_paySlices (s : Nat) (hs : 1 ≤ s) :
    ∀ (n : Nat) (P : List Nat), numParts P.length s = n →
      ((List.range n).map (paySlice P s)).flatten = P := by
  intro n
  induction n with
  | zero =>
    intro P h
    have hlen : P.length = 0 := by
      by_contra hne
      have hl : 1 ≤ P.length := by omega
      have := numParts_pos hs hl
      omega
    rw [List.length_eq_zero.mp hlen]
    rfl
  | succ n ih =>
    intro P h
    have hl : 1 ≤ P.length := by
      by_contra hne
      have h0 : P.length = 0 := by omega
      rw [h0, numParts_zero s hs] at h
      omega
    rw [List.range_succ_eq_map, List.map_cons, List.map_map, List.flatten_cons]
    have hcomp : (paySlice P s ∘ Nat.succ) = paySlice (P.drop s) s := by
      funext i
      show paySlice P s (i + 1) = _
      exact paySlice_succ P s i
    have hn : numParts (P.drop s).length s = n := by
      rw [List.length_drop, numParts_drop P.length s hs hl, h]
      omega
    rw [hcomp, ih (P.drop s) hn, paySlice_zero]
    exact List.take_append_drop s P

/-- C1 counterexample: the split round-trip fails as universally stated.
Container `[0, 0, 0]`, payload `[1, 2, 3, 4]`, part size 2: the program
produces the two parts `[0,0,0,1,2]` and `[0,0,0,3,4]` (the float
division `4 / 2` is exact here), no part contains `b'PK'`, the heuristic
offset `len // 2 = 2` keeps one container byte per part, and
recombination yields `[0, 1, 2, 0, 3, 4]`. -/
theorem split_roundtrip_fails_in_general :
    splitPartsProg [0, 0, 0] [1, 2, 3, 4] 2
      = some [[0, 0, 0, 1, 2], [0, 0, 0, 3, 4]] ∧
    combineParts [[0, 0, 0, 1, 2], [0, 0, 0, 3, 4]] ≠ [1, 2, 3, 4] := by
  decide

/-- Round-trip over the exact-ceiling split list when every part carries
`b'PK'` exactly at the container boundary; helper for the claim theorem
below, which adds the condition that the program's float-derived part
count agrees with the exact ceiling. -/
theorem split_roundtrip_of_signature_at_container (C P : List Nat) (s : Nat)
    (hs : 1 ≤ s)
    (hsig : ∀ part ∈ splitParts C P s, pyFind part pkSig = some C.length) :
    combineParts (splitParts C P s) = P := by
  unfold combineParts splitParts
  rw [List.map_map]
  have hcong : ∀ i ∈ List.range (numParts P.length s),
      (extractPartBytes ∘ partFileBytes C P s) i = paySlice P s i := by
    intro i hi
    have hmem : partFileBytes C P s i ∈ splitParts C P s := by
      unfold splitParts
      exact List.mem_map_of_mem _ hi
    have hfind := hsig _ hmem
    show extractPartBytes (partFileBytes C P s i) = paySlice P s i
    unfold extractPartBytes
    rw [hfind, Option.getD_some]
    unfold partFileBytes
    exact List.drop_left _ _
  rw [List.map_congr_left hcong]
  exact flatten_paySlices s hs (numParts P.length s) P rfl

/-- C1 (amended): the split round-trip holds whenever (a) the program's
float-derived part count `math.ceil(len(P) / s)` equals the exact
ceiling `⌈len(P) / s⌉` (true at all realistic sizes; at
`len(P) = 2^53 + 1, s = 2^30` the float count drops the final byte) and
(b) the first occurrence of `b'PK'` in every produced part is exactly at
the container boundary `len(C)`.  Then the program's parts are the exact
split list, and extracting the payload portion of every part in
ascending part order and concatenating reproduces the payload
byte-for-byte, including when `s ≥ len(P)` and when `s` does not divide
`len(P)`. -/
theorem split_roundtrip_prog_of_signature_at_container (C P : List Nat)
    (s : Nat) (hs : 1 ≤ s)
    (hf : numPartsProg P.length s = some (numParts P.length s))
    (hsig : ∀ part ∈ splitParts C P s, pyFind part pkSig = some C.length) :
    splitPartsProg C P s = some (splitParts C P s) ∧
    combineParts (splitParts C P s) = P := by
  constructor
  · unfold splitPartsProg
    rw [hf]
    rfl
  · exact split_roundtrip_of_signature_at_container C P s hs hsig

/-- Witness for C1 (amended): container `[170]`, payload
`[80, 75, 1, 80, 75, 2]`, part size 3: the float division `6 / 3` is
exact, both parts carry `b'PK'` right at the container boundary, and
recombination reproduces the payload. -/
theorem split_roundtrip_witness :
    1 ≤ 3 ∧
    numPartsProg ([80, 75, 1, 80, 75, 2] : List Nat).length 3
      = some (numParts ([80, 75, 1, 80, 75, 2] : List Nat).length 3) ∧
    (∀ part ∈ splitParts [170] [80, 75, 1, 80, 75, 2] 3,
        pyFind part pkSig = some ([170] : List Nat).length) ∧
    (splitPartsProg [170] [80, 75, 1, 80, 75, 2] 3
        = some (splitParts [170] [80, 75, 1, 80, 75, 2] 3) ∧
      combineParts (splitParts [170] [80, 75, 1, 80, 75, 2] 3)
        = [80, 75, 1, 80, 75, 2]) :=
  ⟨by decide, by decide, by decide,
    split_roundtrip_prog_of_signature_at_container [170]
      [80, 75, 1, 80, 75, 2] 3 (by decide) (by decide) (by decide)⟩

/- ### Lexicographic ordering of part file names (C8, C10) -/

theorem lexLe_append_same (c u v : List Nat) :
    lexLe (c ++ u) (c ++ v) = lexLe u v := by
  induction c with
  | nil => rfl
  | cons a t ih =>
    show lexLe (a :: (t ++ u)) (a :: (t ++ v)) = _
    simp only [lexLe]
    rw [if_neg (Nat.lt_irrefl a), if_neg (Nat.lt_irrefl a)]
    exact ih

theorem lexLe_cons_of_lt {a b : Nat} (h : a < b) (u v : List Nat) :
    lexLe (a :: u) (b :: v) = true := by
  simp only [lexLe]
  rw [if_pos h]

theorem natDigits_single {k : Nat} (h : k < 10) : natDigits k = [48 + k] := by
  unfold natDigits
  rw [dif_pos h]

theorem lexLe_total (a : List Nat) : ∀ b, lexLe a b = true ∨ lexLe b a = true := by
  induction a with
  | nil => intro b; left; rfl
  | cons x xs ih =>
    intro b
    cases b with
    | nil => right; rfl
    | cons y ys =>
      by_cases hxy : x < y
      · left
        simp only [lexLe]
        rw [if_pos hxy]
      · by_cases hyx : y < x
        · right
          simp only [lexLe]
          rw [if_pos hyx]
        · rcases ih ys with h | h
          · left
            simp only [lexLe]
            rw [if_neg hxy, if_neg hyx]
            exact h
          · right
            simp only [lexLe]
            rw [if_neg hyx, if_neg hxy]
            exact h

theorem lexLe_trans {a b c : List Nat} (h1 : lexLe a b = true)
    (h2 : lexLe b c = true) : lexLe a c = true := by
  induction a generalizing b c with
  | nil => rfl
  | cons x xs ih =>
    cases b with
    | nil => simp [lexLe] at h1
    | cons y ys =>
      cases c with
      | nil => simp [lexLe] at h2
      | cons z zs =>
        simp only [lexLe] at h1 h2 ⊢
        rcases Nat.lt_trichotomy x y with hxy | rfl | hxy
        · rcases Nat.lt_trichotomy y z with hyz | rfl | hyz
          · rw [if_pos (Nat.lt_trans hxy hyz)]
          · rw [if_pos hxy]
          · exfalso
            rw [if_neg (by omega : ¬ y < z), if_pos hyz] at h2
            exact Bool.noConfusion h2
        · rw [if_neg (Nat.lt_irrefl x), if_neg (Nat.lt_irrefl x)] at h1
          rcases Nat.lt_trichotomy x z with hxz | rfl | hxz
          · rw [if_pos hxz]
          · rw [if_neg (Nat.lt_irrefl x), if_neg (Nat.lt_irrefl x)] at h2 ⊢
            exact ih h1 h2
          · exfalso
            rw [if_neg (by omega : ¬ x < z), if_pos hxz] at h2
            exact Bool.noConfusion h2
        · exfalso
          rw [if_neg (by omega : ¬ x < y), if_pos hxy] at h1
          exact Bool.noConfusion h1

theorem lexLe_antisymm {a b : List Nat} (h1 : lexLe a b = true)
    (h2 : lexLe b a = true) : a = b := by
  induction a generalizing b with
  | nil =>
    cases b with
    | nil => rfl
    | cons y ys => simp [lexLe] at h2
  | cons x xs ih =>
    cases b with
    | nil => simp [lexLe] at h1
    | cons y ys =>
      simp only [lexLe] at h1 h2
      rcases Nat.lt_trichotomy x y with hxy | rfl | hxy
      · exfalso
        rw [if_neg (by omega : ¬ y < x), if_pos hxy] at h2
        exact Bool.noConfusion h2
      · rw [if_neg (Nat.lt_irrefl x), if_neg (Nat.lt_irrefl x)] at h1 h2
        rw [ih h1 h2]
      · exfalso
        rw [if_neg (by omega : ¬ x < y), if_pos hxy] at h1
        exact Bool.noConfusion h1

/-- C8: part naming and ordering — split mode names its output files
`base_part1.mp4`, `base_part2.mp4`, … with the 1-based part index before
the extension, and for every split with at most 9 parts, sorting the
produced names lexicographically (as `sorted(...)` does at
reconstruction) leaves them exactly in ascending part-index order. -/
theorem part_names_sort_in_index_order (base : List Nat) (n : Nat)
    (hn : n ≤ 9) :
    sortPaths (splitFileNames base n) = splitFileNames base n := by
  haveI : IsTotal (List Nat) LexLe := ⟨fun a b => lexLe_total a b⟩
  haveI : IsTrans (List Nat) LexLe := ⟨fun _ _ _ h1 h2 => lexLe_trans h1 h2⟩
  unfold sortPaths
  apply List.Sorted.insertionSort_eq
  unfold splitFileNames
  have hp : List.Pairwise
      (fun i j => LexLe (partName base (i + 1)) (partName base (j + 1)))
      (List.range n) := by
    refine List.Pairwise.imp_of_mem ?_ (List.pairwise_lt_range n)
    intro i j hi hj hij
    have hi9 : i + 1 < 10 := by
      have := List.mem_range.mp hi
      omega
    have hj9 : j + 1 < 10 := by
      have := List.mem_range.mp hj
      omega
    show LexLe (partName base (i + 1)) (partName base (j + 1))
    unfold LexLe partName
    rw [natDigits_single hi9, natDigits_single hj9]
    rw [List.append_assoc (base ++ [95, 112, 97, 114, 116]) [48 + (i + 1)]
        [46, 109, 112, 52],
      List.append_assoc (base ++ [95, 112, 97, 114, 116]) [48 + (j + 1)]
        [46, 109, 112, 52]]
    rw [lexLe_append_same]
    rw [List.singleton_append, List.singleton_append]
    exact lexLe_cons_of_lt (by omega) _ _
  exact List.pairwise_map.mpr hp

/-- Witness for C8: base name `[104, 100]` (`"hd"`), 3 parts. -/
theorem part_names_sort_witness :
    3 ≤ 9 ∧ sortPaths (splitFileNames [104, 100] 3) = splitFileNames [104, 100] 3 :=
  ⟨by decide, part_names_sort_in_index_order [104, 100] 3 (by decide)⟩

/-- C10: order-insensitivity of split recombination —
`combine_split_polyglots` sorts the supplied part paths before
processing, so its output bytes are the same for every permutation of
the same part list. -/
theorem combine_is_order_insensitive (readFile : List Nat → List Nat)
    (paths paths2 : List (List Nat)) (h : paths.Perm paths2) :
    combineFiles readFile paths = combineFiles readFile paths2 := by
  unfold combineFiles
  haveI : IsTotal (List Nat) LexLe := ⟨fun a b => lexLe_total a b⟩
  haveI : IsTrans (List Nat) LexLe := ⟨fun _ _ _ h1 h2 => lexLe_trans h1 h2⟩
  haveI : IsAntisymm (List Nat) LexLe := ⟨fun _ _ h1 h2 => lexLe_antisymm h1 h2⟩
  have hsort : sortPaths paths = sortPaths paths2 := by
    unfold sortPaths
    apply List.eq_of_perm_of_sorted (r := LexLe)
    · exact ((List.perm_insertionSort LexLe paths).trans h).trans
        (List.perm_insertionSort LexLe paths2).symm
    · exact List.sorted_insertionSort LexLe paths
    · exact List.sorted_insertionSort LexLe paths2
  rw [hsort]

/-- Witness for C10: two part files supplied in both orders produce the
same combined bytes. -/
theorem combine_order_witness :
    (([[2], [80, 75, 1]] : List (List Nat)).Perm [[80, 75, 1], [2]]) ∧
    combineFiles (fun p => p) [[2], [80, 75, 1]]
      = combineFiles (fun p => p) [[80, 75, 1], [2]] :=
  ⟨by decide, combine_is_order_insensitive (fun p => p) _ _ (by decide)⟩

/- ### Behaviour at inputs the spec calls errors (C6, C7, C9) -/

/-- C6 evaluated at the failing input: `create_single_polyglot` has no
emptiness check, so for a directory containing zero files
(`files_to_hide = {}`) it still produces an output file — the container
bytes followed by whatever the archive collaborator returns for an empty
entry list — instead of signaling a caller-input error with no output. -/
theorem create_single_proceeds_on_empty_folder :
    createSinglePolyglot (fun _ => [80, 75, 5, 6]) [9, 9] []
      = [9, 9, 80, 75, 5, 6] := by decide

/-- C7 evaluated at the failing input: a single-part split of payload
`[80, 75, 1, 2]` under container `[170]`, corrupted in its last byte
after creation.  `combine_split_polyglots` completes and writes the
mismatching bytes `[80, 75, 1, 3]`; the source never computes the
reconstruction's checksum nor compares it with the recorded one. -/
theorem combine_completes_despite_corruption :
    combineParts [[170, 80, 75, 1, 3]] = [80, 75, 1, 3] ∧
    ([80, 75, 1, 3] : List Nat) ≠ [80, 75, 1, 2] := by decide

/-- C9 evaluated at the failing input: for the part `[1, 2, 3, 4, 5]`
(no `b'PK'` anywhere) the scan finds nothing, the offset falls back to
`len // 2 = 2`, and the degraded slice `[3, 4, 5]` is appended to the
output exactly like a confirmed one — the source emits no warning. -/
theorem fallback_offset_without_signature :
    pyFind [1, 2, 3, 4, 5] pkSig = none ∧
    extractPartBytes [1, 2, 3, 4, 5] = [3, 4, 5] := by decide

end Polygot
